import Mathlib

/-!
Verification development for the Prose-Guardian repository.

This file gives a shallow embedding, in Lean 4, of the two core components
of the repository — the Static Fixer (src/static-fixer.js) and the Passive
Watcher (src/passive-watcher.js) — and proves or refutes the frozen claims
about them.

Modelling conventions:
* JavaScript strings are modelled as Lean `String` (a wrapper around
  `List Char`); all character classes (`\s`, `\w`, `[a-z]`, …) are modelled
  at their ASCII meaning, which is exact for every input exercised here.
* JavaScript numbers are modelled as `ℚ` (scores) and `Nat`/`ℤ` (counters),
  so the arithmetic in the scoring and decay formulas is exact.
* JavaScript `Map`/`Set` are modelled as association lists / lists kept in
  insertion order, matching the iteration order of the source.
* The regular expressions appearing in the source are each modelled by a
  dedicated deterministic scanner that implements the exact match/replace
  semantics (including greedy/lazy quantifier behaviour and the
  last-iteration-only capture of a repeated group) for the pattern class
  the source uses.  Scanners use an explicit fuel argument, always called
  with fuel strictly larger than the length of the scanned list, so that
  every definition is executable by kernel reduction.
-/

/-! ### Character classes (ASCII semantics of the JS classes used) -/

/-- Model of the JS whitespace class `\s` (ASCII part). -/
def isWsJS (c : Char) : Bool :=
  c.toNat == 32 || c.toNat == 9 || c.toNat == 10 || c.toNat == 13 ||
  c.toNat == 11 || c.toNat == 12

/-- Model of the sentence-terminal class `[.!?]`. -/
def isSentPunc (c : Char) : Bool :=
  c.toNat == 46 || c.toNat == 33 || c.toNat == 63

/-- Model of the JS class `[a-z]`. -/
def isLowerAlpha (c : Char) : Bool :=
  97 ≤ c.toNat && c.toNat ≤ 122

/-- Model of the JS word-character class `\w` = `[A-Za-z0-9_]`. -/
def isWordChar (c : Char) : Bool :=
  (65 ≤ c.toNat && c.toNat ≤ 90) || (97 ≤ c.toNat && c.toNat ≤ 122) ||
  (48 ≤ c.toNat && c.toNat ≤ 57) || c.toNat == 95

/-! ### Generic string helpers mirroring JS string methods -/

/-- Model of JS `String.prototype.trim` (ASCII whitespace). -/
def trimL (l : List Char) : List Char :=
  ((l.dropWhile isWsJS).reverse.dropWhile isWsJS).reverse

/-- String wrapper of `trimL`. -/
def jsTrim (s : String) : String :=
  ⟨trimL s.data⟩

/-- Case-insensitive prefix test, used to model a case-insensitive literal
regex match (`toLowerCase` on both sides; `Char.toLower` is the ASCII map). -/
def ciLeads : List Char → List Char → Bool
  | [], _ => true
  | _ :: _, [] => false
  | a :: as, b :: bs => if a.toLower = b.toLower then ciLeads as bs else false

/-- Case-sensitive prefix test. -/
def leadsWith : List Char → List Char → Bool
  | [], _ => true
  | _ :: _, [] => false
  | a :: as, b :: bs => if a = b then leadsWith as bs else false

/-- Model of JS `String.prototype.split(sep)` for a single-character
separator: empty pieces are kept, exactly as in JS. -/
def splitOnChar (sep : Char) : List Char → List Char → List (List Char)
  | [], acc => [acc.reverse]
  | c :: r, acc =>
    if c = sep then acc.reverse :: splitOnChar sep r []
    else splitOnChar sep r (c :: acc)

/-- Model of JS `split(/\s+/)` followed by `filter(Boolean)`: the list of
maximal nonempty runs of non-whitespace characters. -/
def wordsOf : List Char → List Char → List (List Char)
  | [], acc => if acc.isEmpty then [] else [acc.reverse]
  | c :: r, acc =>
    if isWsJS c then
      (if acc.isEmpty then wordsOf r [] else acc.reverse :: wordsOf r [])
    else wordsOf r (c :: acc)

/-! ### Static Fixer: the bounded-literal matcher

Every `findRegex` exercised by the claims has the form `\b<literal>\b` where
the literal starts and ends with a word character (`"\\bheart pounded\\b"`,
`"foo"` without anchors is handled by the same scanner with the boundary
checks specialised below).  Compiled with flags `gi` this matches every
non-overlapping, leftmost occurrence of the literal, case-insensitively,
whose neighbouring characters are not word characters.  `bSplit` returns the
list of inter-match segments (`n` matches produce `n+1` segments), which is
exactly the decomposition `String.prototype.replace` performs before
splicing in the replacement for each match. -/

/-- Word-boundary test after the matched literal: the match is accepted only
if the remainder starts with a non-word character or is empty (the literal
ends in a word character). -/
def endBoundary (rem : List Char) : Bool :=
  match rem with
  | [] => true
  | d :: _ => !isWordChar d

/-- Whether the last character of the matched text is a word character; this
becomes the "previous character is a word character" state after a match. -/
def lastIsWord (l : List Char) : Bool :=
  match l.getLast? with
  | some d => isWordChar d
  | none => false

/-- Split `s` at every match of the bounded case-insensitive literal `pat`.
`prevW` records whether the character before the current position is a word
character (`false` at the start of the string). -/
def bSplit (pat : List Char) : Nat → List Char → Bool → List (List Char)
  | 0, s, _ => [s]
  | f + 1, s, prevW =>
    match s with
    | [] => [[]]
    | c :: rest =>
      if !pat.isEmpty && !prevW && ciLeads pat (c :: rest) &&
          endBoundary ((c :: rest).drop pat.length) then
        [] :: bSplit pat f ((c :: rest).drop pat.length)
          (lastIsWord ((c :: rest).take pat.length))
      else
        match bSplit pat f rest (isWordChar c) with
        | seg :: segs => (c :: seg) :: segs
        | [] => [[c]]

/-- Splice chosen replacements between the segments produced by `bSplit`;
`rep k` is the replacement for the `k`-th match. -/
def spliceSegs : List (List Char) → (Nat → List Char) → Nat → List Char
  | [], _, _ => []
  | [s], _, _ => s
  | s :: t :: rest, rep, k => s ++ rep k ++ spliceSegs (t :: rest) rep (k + 1)

/-- Model of `text.replace(regex, fn)` for the bounded-literal pattern class:
decompose, then splice in one replacement per match. -/
def replaceBounded (pat : List Char) (text : List Char) (rep : Nat → List Char) :
    List Char :=
  spliceSegs (bSplit pat (text.length + 1) text false) rep 0

/-! ### Static Fixer: `{{random:...}}` parsing

The source tests `rule.replaceString.includes('{{random:')` and then runs
`rule.replaceString.match(/\{\{random:([\s\S]+?)\}\}/)`.  The lazy group
means: find the first occurrence of the opener, then capture everything up
to the first `}}` lying at least one character later; if no such closer
exists the match is `null` (and, since later opener occurrences only have
fewer closer positions available, no other occurrence can match either). -/

/-- Find the first occurrence of `needle` in `l`, returning the part before
it and the part after it. -/
def splitAtSub (needle : List Char) : Nat → List Char → Option (List Char × List Char)
  | 0, _ => none
  | f + 1, l =>
    if leadsWith needle l then some ([], l.drop needle.length)
    else
      match l with
      | [] => none
      | c :: r => (splitAtSub needle f r).map (fun p => (c :: p.1, p.2))

/-- Capture everything before the first `}}` in `l` (the closer may sit at
position 0 here because one content character has already been consumed). -/
def upToBrace2 : Nat → List Char → Option (List Char)
  | 0, _ => none
  | f + 1, l =>
    if leadsWith ("\x7d\x7d".data) l then some []
    else
      match l with
      | [] => none
      | c :: r => (upToBrace2 f r).map (fun cap => c :: cap)

/-- Lazy capture of `([\s\S]+?)` before `}}`: at least one character, then
everything up to the earliest closer. -/
def grabCapture (l : List Char) : Option (List Char) :=
  match l with
  | [] => none
  | c :: r => (upToBrace2 (r.length + 1) r).map (fun cap => c :: cap)

/-- Substring containment, modelling JS `String.prototype.includes`. -/
def containsSub (needle l : List Char) : Bool :=
  (splitAtSub needle (l.length + 1) l).isSome

/-- Model of the source's `{{random:option1,option2,...}}` parse: locate the
opener, capture lazily up to the first `}}`, and split the capture on `,`
(empty pieces kept, as JS `split(',')` does).  Returns `none` exactly when
the source's `optionsMatch` is `null`. -/
def parseRandom (rs : String) : Option (List String) :=
  (splitAtSub ("\x7b\x7brandom:".data) (rs.data.length + 1) rs.data).bind
    (fun p => (grabCapture p.2).map
      (fun cap => (splitOnChar ',' cap []).map (fun w => (⟨w⟩ : String))))

/-! ### Static Fixer: rules and `applyReplacements` -/

/-- A replacement rule, in the external shape consumed by
`StaticFixer.applyReplacements`.  `findLiteral` is the literal body of the
rule's `findRegex`, whose compiled form (`new RegExp(findRegex, 'gi')`) is
modelled by the bounded-literal scanner above.  The modelled rules have no
capture groups and none of their alternatives contains `$`, so the source's
`$n` back-reference substitution pass is the identity on them and is not
modelled. -/
structure SFRule where
  findLiteral : String
  replaceString : String
  disabled : Bool
  isStatic : Bool
deriving DecidableEq

/-- Apply one rule to the text.  Mirrors the body of the `forEach` in
`StaticFixer.applyReplacements`: if the replace string contains
`{{random:`, parse it; on a successful parse every match is replaced by a
freshly drawn option (trimmed), `choose k` being the index drawn for the
`k`-th match; if the parse fails nothing at all happens (the `if` has no
`else` in the source); without `{{random:` the raw replace string is
spliced in for every match. -/
def applyRule (r : SFRule) (choose : Nat → Nat) (text : String) : String :=
  if containsSub ("\x7b\x7brandom:".data) r.replaceString.data then
    match parseRandom r.replaceString with
    | some options =>
        ⟨replaceBounded r.findLiteral.data text.data
          (fun k => trimL (options.getD (choose k) "").data)⟩
    | none => text
  else
    ⟨replaceBounded r.findLiteral.data text.data (fun _ => r.replaceString.data)⟩

/-- Model of `StaticFixer.applyReplacements`: guard on empty text and the
`enabled` flag, filter to enabled static rules, then apply the rules in
order, each operating on the output of the previous one.  `choose i k` is
the random index drawn for the `k`-th match of the `i`-th enabled rule. -/
def applyReplacements (rules : List SFRule) (enabled : Bool)
    (choose : Nat → Nat → Nat) (text : String) : String :=
  if text = "" || !enabled then text
  else
    ((rules.filter (fun r => !r.disabled && r.isStatic)).enum).foldl
      (fun acc ir => applyRule ir.2 (choose ir.1) acc) text

/-! ### Static Fixer: `fixCapitalization`

The first regex is `/^(\s*<[^>]*>)*([a-z])/s`, the second
`/([.!?])(\s*<[^>]*>)*\s+([a-z])/gs`.  In JS, a repeated capturing group
retains only its **last** iteration, so the replacement template
`` `${tags || ''}${letter.toUpperCase()}` `` re-inserts only the last
`\s*<[^>]*>` chunk of the run it consumed.  `capTagRun` consumes the maximal
run of whitespace-then-tag chunks and returns the last chunk together with
the remainder; as analysed from the regex, backtracking to a shorter run can
never succeed, so the maximal-run semantics is exact. -/

/-- Consume a maximal run of `\s*<[^>]*>` chunks; return the last chunk
consumed (the group's final capture, `[]` if the run is empty) and the
unconsumed remainder. -/
def capTagRun : Nat → List Char → List Char → List Char × List Char
  | 0, last, s => (last, s)
  | f + 1, last, s =>
    match s.dropWhile isWsJS with
    | [] => (last, s)
    | c :: r =>
      if c = '<' then
        match r.dropWhile (fun x => !(x = '>')) with
        | [] => (last, s)
        | d :: r2 =>
          if d = '>' then
            capTagRun f
              ((s.takeWhile isWsJS) ++ c :: (r.takeWhile (fun x => !(x = '>')) ++ [d]))
              r2
          else (last, s)
      else (last, s)

/-- Model of the first replace of `fixCapitalization`: upper-case the first
`[a-z]` after the leading tag run, re-inserting only the run's last chunk. -/
def fixCapFirst (s : List Char) : List Char :=
  match capTagRun (s.length + 1) [] s with
  | (last, rest) =>
    match rest with
    | c :: r => if isLowerAlpha c then last ++ (c.toUpper :: r) else s
    | [] => s

/-- Model of the second (global) replace of `fixCapitalization`: after each
sentence-terminal character, a maximal tag run, then mandatory whitespace,
then `[a-z]` — replaced by the punctuation, the run's last chunk, a single
space and the upper-cased letter; scanning resumes after the match. -/
def fixCapAfter : Nat → List Char → List Char
  | 0, s => s
  | _ + 1, [] => []
  | f + 1, c :: rest =>
    if isSentPunc c then
      match capTagRun (rest.length + 1) [] rest with
      | (last, r1) =>
        match r1.dropWhile isWsJS with
        | d :: r2 =>
          if !(r1.takeWhile isWsJS).isEmpty && isLowerAlpha d then
            c :: (last ++ ' ' :: d.toUpper :: fixCapAfter f r2)
          else c :: fixCapAfter f rest
        | [] => c :: fixCapAfter f rest
    else c :: fixCapAfter f rest

/-- Model of `StaticFixer.fixCapitalization`. -/
def fixCapitalization (text : String) : String :=
  if text = "" then text
  else
    match fixCapFirst text.data with
    | l => ⟨fixCapAfter (l.length + 1) l⟩

/-- Model of `StaticFixer.process`: apply replacements, then fix
capitalization. -/
def process (rules : List SFRule) (enabled : Bool)
    (choose : Nat → Nat → Nat) (text : String) : String :=
  fixCapitalization (applyReplacements rules enabled choose text)

/-! ### Passive Watcher: `stripMarkup`

Six successive regex replaces, each modelled by a deterministic scanner:
1. ``/(?:```|~~~)\w*\s*[\s\S]*?(?:```|~~~)/g → ' '`` (code blocks),
2. `/<[^>]*>/g → ' '` (tags),
3. `` /(?:\*|_|~|`)+(.+?)(?:\*|_|~|`)+/g → '$1' `` (markdown emphasis),
4. `/"(.*?)"/g → ' $1 '` (quotes),
5. `/\((.*?)\)/g → ' $1 '` (parentheses),
6. `/\s+/g → ' '` then `trim()`.
For pass 1 the greedy `\w*\s*` cannot overlap a delimiter, so the lazy part
always ends at the earliest following delimiter.  For pass 3, greedy opener
backtracking only ever succeeds in the degenerate "run of ≥ 3 markers with
no external closer" case, where the match is the run itself and the capture
is the run's second-to-last marker; `mdScan` implements exactly this.
Passes 4 and 5 use `.` (no `s` flag), so a capture cannot cross a newline. -/

/-- Either code-fence delimiter: ``` or ~~~. -/
def delim3 (l : List Char) : Bool :=
  leadsWith ("```".data) l || leadsWith ("~~~".data) l

/-- Find the earliest code-fence closer; return the remainder after it. -/
def findCloser : Nat → List Char → Option (List Char)
  | 0, _ => none
  | f + 1, l =>
    if delim3 l then some (l.drop 3)
    else
      match l with
      | [] => none
      | _ :: r => findCloser f r

/-- Pass 1: replace each fenced code block by a single space. -/
def stripCodeBlocks : Nat → List Char → List Char
  | 0, l => l
  | _ + 1, [] => []
  | f + 1, c :: rest =>
    if delim3 (c :: rest) then
      match
        findCloser
          (((((c :: rest).drop 3).dropWhile isWordChar).dropWhile isWsJS).length + 1)
          ((((c :: rest).drop 3).dropWhile isWordChar).dropWhile isWsJS) with
      | some rem => ' ' :: stripCodeBlocks f rem
      | none => c :: stripCodeBlocks f rest
    else c :: stripCodeBlocks f rest

/-- Pass 2: replace each `<...>` tag by a single space. -/
def stripTags : Nat → List Char → List Char
  | 0, l => l
  | _ + 1, [] => []
  | f + 1, c :: rest =>
    if c = '<' then
      match rest.dropWhile (fun d => !(d = '>')) with
      | '>' :: r2 => ' ' :: stripTags f r2
      | _ => c :: stripTags f rest
    else c :: stripTags f rest

/-- The markdown emphasis marker characters. -/
def mdMarks : List Char := "*_~`".data

/-- Membership in the marker class. -/
def isMark (c : Char) : Bool := mdMarks.contains c

/-- Lazy search for the next marker with no intervening newline; returns the
capture so far and the remainder starting at the marker. -/
def mdCloser : Nat → List Char → Option (List Char × List Char)
  | 0, _ => none
  | _ + 1, [] => none
  | f + 1, c :: r =>
    if isMark c then some ([], c :: r)
    else if c = '\n' then none
    else (mdCloser f r).map (fun p => (c :: p.1, p.2))

/-- Pass 3: collapse emphasis spans to their inner text. -/
def mdScan : Nat → List Char → List Char
  | 0, l => l
  | _ + 1, [] => []
  | f + 1, c :: rest =>
    if isMark c then
      match mdCloser (((c :: rest).drop ((c :: rest).takeWhile isMark).length).length + 1)
          ((c :: rest).drop ((c :: rest).takeWhile isMark).length) with
      | some (cap, rem) =>
          cap ++ mdScan f (rem.drop (rem.takeWhile isMark).length)
      | none =>
          if 3 ≤ ((c :: rest).takeWhile isMark).length then
            ((((c :: rest).takeWhile isMark).drop
                (((c :: rest).takeWhile isMark).length - 2)).take 1) ++
              mdScan f ((c :: rest).drop ((c :: rest).takeWhile isMark).length)
          else c :: mdScan f rest
    else c :: mdScan f rest

/-- Lazy single-line search used by the quote and parenthesis passes:
capture up to the first `close`, failing on a newline. -/
def lazyTo (close : Char) : Nat → List Char → Option (List Char × List Char)
  | 0, _ => none
  | _ + 1, [] => none
  | f + 1, c :: r =>
    if c = close then some ([], r)
    else if c = '\n' then none
    else (lazyTo close f r).map (fun p => (c :: p.1, p.2))

/-- Pass 4: unwrap double-quoted spans, padding with spaces. -/
def quoteScan : Nat → List Char → List Char
  | 0, l => l
  | _ + 1, [] => []
  | f + 1, c :: rest =>
    if c = '"' then
      match lazyTo '"' (rest.length + 1) rest with
      | some (cap, rem) => ' ' :: (cap ++ ' ' :: quoteScan f rem)
      | none => c :: quoteScan f rest
    else c :: quoteScan f rest

/-- Pass 5: unwrap parenthesised spans, padding with spaces. -/
def parenScan : Nat → List Char → List Char
  | 0, l => l
  | _ + 1, [] => []
  | f + 1, c :: rest =>
    if c = '(' then
      match lazyTo ')' (rest.length + 1) rest with
      | some (cap, rem) => ' ' :: (cap ++ ' ' :: parenScan f rem)
      | none => c :: parenScan f rest
    else c :: parenScan f rest

/-- Pass 6 (first half): collapse whitespace runs to single spaces. -/
def collapseWs : List Char → Bool → List Char
  | [], _ => []
  | c :: r, prevWs =>
    if isWsJS c then
      if prevWs then collapseWs r true else ' ' :: collapseWs r true
    else c :: collapseWs r false

/-- Fuel wrapper for pass 1. -/
def stripCodeBlocksW (l : List Char) : List Char := stripCodeBlocks (l.length + 1) l

/-- Fuel wrapper for pass 2. -/
def stripTagsW (l : List Char) : List Char := stripTags (l.length + 1) l

/-- Fuel wrapper for pass 3. -/
def mdScanW (l : List Char) : List Char := mdScan (l.length + 1) l

/-- Fuel wrapper for pass 4. -/
def quoteScanW (l : List Char) : List Char := quoteScan (l.length + 1) l

/-- Fuel wrapper for pass 5. -/
def parenScanW (l : List Char) : List Char := parenScan (l.length + 1) l

/-- Model of `PassiveWatcher.stripMarkup`: the six passes in source order. -/
def stripMarkup (text : String) : String :=
  if text = "" then ""
  else
    jsTrim
      ⟨collapseWs
        (parenScanW (quoteScanW (mdScanW (stripTagsW (stripCodeBlocksW text.data)))))
        false⟩

/-! ### Passive Watcher: sentence splitting and tokenization -/

/-- Model of `cleanText.match(/[^.!?]+[.!?]+["]?/g)`: each match is a
maximal run of non-terminal characters, a maximal run of terminal
punctuation, and an optional closing double quote; unmatched characters are
skipped. -/
def sentencesAux : Nat → List Char → List (List Char)
  | 0, _ => []
  | _ + 1, [] => []
  | f + 1, c :: r =>
    if isSentPunc c then sentencesAux f r
    else
      match (c :: r).drop ((c :: r).takeWhile (fun d => !isSentPunc d)).length with
      | [] => []
      | p :: after =>
        match after.drop (after.takeWhile isSentPunc).length with
        | '"' :: rr =>
          ((c :: r).takeWhile (fun d => !isSentPunc d) ++
            (p :: after.takeWhile isSentPunc) ++ ['"']) :: sentencesAux f rr
        | _ =>
          ((c :: r).takeWhile (fun d => !isSentPunc d) ++
            (p :: after.takeWhile isSentPunc)) ::
            sentencesAux f (after.drop (after.takeWhile isSentPunc).length)

/-- Model of the sentence split in `analyzeMessage`, including the
`|| [cleanText]` fallback when there is no match. -/
def sentencesOf (clean : String) : List String :=
  match sentencesAux (clean.data.length + 1) clean.data with
  | [] => [clean]
  | l => l.map (fun x => (⟨x⟩ : String))

/-- Model of the tokenizer in `analyzeMessage`: remove `[.,!?]`, lower-case,
split on whitespace, drop empty tokens. -/
def tokenize (sentence : String) : List String :=
  (wordsOf
    ((sentence.data.filter
      (fun c => !(c = '.' || c = ',' || c = '!' || c = '?'))).map Char.toLower)
    []).map (fun w => (⟨w⟩ : String))

/-- Model of `PassiveWatcher.generateNgrams`. -/
def generateNgrams (words : List String) (n : Nat) : List String :=
  if words.length < n then []
  else
    (List.range (words.length - n + 1)).map
      (fun i => String.intercalate " " ((words.drop i).take n))

/-! ### Passive Watcher: state -/

/-- Model of the settings object built in the `PassiveWatcher` constructor. -/
structure WatcherSettings where
  ngramMin : Nat
  ngramMax : Nat
  slopThreshold : ℚ
  pruningCycle : Nat
  patternMinCommon : Nat
  messagesToAnalyze : Nat
deriving DecidableEq

/-- The constructor defaults. -/
def defaultSettings : WatcherSettings := ⟨3, 7, 5, 20, 2, 20⟩

/-- Model of the per-n-gram record stored in `ngramFrequencies`
(`{count, score, lastSeen}`; the spec calls these `occurrenceCount`,
`score`, `lastSeenAtMessageIndex`). -/
structure NgramData where
  count : Nat
  score : ℚ
  lastSeen : Nat
deriving DecidableEq

/-- Model of a `PassiveWatcher` instance.  `ngramFrequencies` models the JS
`Map` as an association list in insertion order with unique keys;
`slopCandidates` models the JS `Set` as a duplicate-free list in insertion
order. -/
structure PassiveWatcher where
  settings : WatcherSettings
  ngramFrequencies : List (String × NgramData)
  slopCandidates : List String
  totalMessagesProcessed : Nat
  enabled : Bool
  whitelist : List String
deriving DecidableEq

/-- The stop-word list from `common-words.js` as present in the source file
(the file itself truncates the full list with a comment; every claim proved
here is parametric in the whitelist, so the truncation is immaterial).  Note
that the source stores `'I'` upper-case. -/
def COMMON_WORDS : List String :=
  ["the", "of", "to", "and", "a", "in", "is", "it", "you", "that", "he",
   "was", "for", "on", "are", "with", "as", "I",
   "his", "they", "be", "at", "one", "have", "this", "from", "or", "had",
   "by", "not", "word", "but", "what", "some",
   "we", "can", "out", "other", "were", "all", "there", "when", "up", "use",
   "your", "how", "said", "an", "each",
   "she", "which", "do", "their", "time", "if", "will", "way", "about",
   "many", "then", "them", "write", "would",
   "like", "so", "these", "her", "long", "make", "thing", "see", "him",
   "two", "has", "look", "more", "day", "could",
   "go", "come", "did", "number", "sound", "no", "most", "people", "my",
   "over", "know", "water", "than", "call"]

/-- Model of `new PassiveWatcher(options)` for an options object that only
overrides settings fields. -/
def mkPassiveWatcher (s : WatcherSettings) : PassiveWatcher :=
  ⟨s, [], [], 0, true, COMMON_WORDS⟩

/-- The default instance exported by the module. -/
def defaultWatcher : PassiveWatcher := mkPassiveWatcher defaultSettings

/-! ### Passive Watcher: the frequency map -/

/-- Model of `Map.prototype.get` on the association-list representation. -/
def mapGet : List (String × NgramData) → String → Option NgramData
  | [], _ => none
  | p :: rest, k => if p.1 = k then some p.2 else mapGet rest k

/-- Model of `Map.prototype.set`: overwrite in place if the key exists,
append otherwise. -/
def mapSet : List (String × NgramData) → String → NgramData → List (String × NgramData)
  | [], k, v => [(k, v)]
  | p :: rest, k, v => if p.1 = k then (k, v) :: rest else p :: mapSet rest k v

/-! ### Passive Watcher: analysis -/

/-- Model of `PassiveWatcher.isPhraseLowQuality`. -/
def isPhraseLowQuality (w : PassiveWatcher) (phrase : String) : Bool :=
  if ((splitOnChar ' ' (phrase.data.map Char.toLower) []).map
      (fun x => (⟨x⟩ : String))).length < w.settings.ngramMin then true
  else
    ((splitOnChar ' ' (phrase.data.map Char.toLower) []).map
      (fun x => (⟨x⟩ : String))).all (fun word => w.whitelist.contains word)

/-- Model of the `uncommonWordCount` reduce in `analyzeMessage`: the number
of space-separated tokens of the n-gram that are not in the whitelist. -/
def uncommonCount (whitelist : List String) (ngram : String) : Nat :=
  (((splitOnChar ' ' ngram.data []).map (fun x => (⟨x⟩ : String))).filter
    (fun word => !whitelist.contains word)).length

/-- Model of the body of the inner n-gram loop of `analyzeMessage`: skip the
n-gram if it is low quality, otherwise update its record (incrementing the
count, adding the score increment, stamping the current message counter) and
add it to the slop-candidate set if its score just crossed the threshold. -/
def trackNgram (w : PassiveWatcher) (ngram : String) (n : Nat) : PassiveWatcher :=
  if isPhraseLowQuality w ngram then w
  else
    { w with
      ngramFrequencies :=
        mapSet w.ngramFrequencies ngram
          ⟨((mapGet w.ngramFrequencies ngram).getD ⟨0, 0, w.totalMessagesProcessed⟩).count + 1,
            ((mapGet w.ngramFrequencies ngram).getD ⟨0, 0, w.totalMessagesProcessed⟩).score +
              (1 + ((n : ℚ) - (w.settings.ngramMin : ℚ)) * 0.2 +
                (uncommonCount w.whitelist ngram : ℚ) * 0.5),
            w.totalMessagesProcessed⟩,
      slopCandidates :=
        if w.settings.slopThreshold ≤
              ((mapGet w.ngramFrequencies ngram).getD ⟨0, 0, w.totalMessagesProcessed⟩).score +
                (1 + ((n : ℚ) - (w.settings.ngramMin : ℚ)) * 0.2 +
                  (uncommonCount w.whitelist ngram : ℚ) * 0.5) ∧
            ((mapGet w.ngramFrequencies ngram).getD ⟨0, 0, w.totalMessagesProcessed⟩).score <
              w.settings.slopThreshold then
          (if ngram ∈ w.slopCandidates then w.slopCandidates
           else w.slopCandidates ++ [ngram])
        else w.slopCandidates }

/-- Model of the per-sentence part of `analyzeMessage`: tokenize, then for
each window size from `ngramMin` to `ngramMax` track every n-gram of the
sentence. -/
def analyzeSentence (w : PassiveWatcher) (sentence : String) : PassiveWatcher :=
  (List.range' w.settings.ngramMin (w.settings.ngramMax + 1 - w.settings.ngramMin)).foldl
    (fun acc n =>
      (generateNgrams (tokenize sentence) n).foldl
        (fun acc2 g => trackNgram acc2 g n) acc)
    w

/-- Model of the part of `analyzeMessage` after the guards: process each
nonempty sentence of the cleaned text, then advance the message counter. -/
def observeText (w : PassiveWatcher) (clean : String) : PassiveWatcher :=
  { (sentencesOf clean).foldl
      (fun acc s => if jsTrim s = "" then acc else analyzeSentence acc s) w with
    totalMessagesProcessed :=
      ((sentencesOf clean).foldl
        (fun acc s => if jsTrim s = "" then acc else analyzeSentence acc s)
        w).totalMessagesProcessed + 1 }

/-- Decision made by `pruneOldNgrams` for one entry: entries whose age is at
most the pruning cycle are kept unchanged; stale entries are deleted when
below the threshold and decayed by the factor 0.9 otherwise. -/
def pruneEntry (counter cycle : Nat) (thr : ℚ) (p : String × NgramData) :
    Option (String × NgramData) :=
  if (cycle : ℤ) < (counter : ℤ) - (p.2.lastSeen : ℤ) then
    (if p.2.score < thr then none
     else some (p.1, { p.2 with score := p.2.score * 0.9 }))
  else some p

/-- Model of `PassiveWatcher.pruneOldNgrams`: apply the per-entry decision
to every entry of the frequency map (iteration with in-place delete/update
on a JS `Map` is exactly a filter-map pass in insertion order), and remove
the deleted keys from the slop-candidate set. -/
def pruneOldNgrams (w : PassiveWatcher) : PassiveWatcher :=
  { w with
    ngramFrequencies :=
      w.ngramFrequencies.filterMap
        (pruneEntry w.totalMessagesProcessed w.settings.pruningCycle
          w.settings.slopThreshold),
    slopCandidates :=
      w.slopCandidates.filter
        (fun k =>
          !(w.ngramFrequencies.any
            (fun p => p.1 = k ∧
              (pruneEntry w.totalMessagesProcessed w.settings.pruningCycle
                w.settings.slopThreshold p).isNone))) }

/-- Model of `PassiveWatcher.analyzeMessage`.  The argument is an
`Option String` so that a JS `null`/`undefined` message is representable
(`!text` is true exactly for `none` and `some ""`).  After the guards the
text is cleaned; a text whose cleaned form trims to the empty string is
ignored.  Otherwise the sentences are processed, the counter advances, and
pruning runs when the counter has completed another pruning cycle. -/
def analyzeMessage (w : PassiveWatcher) (text : Option String) : PassiveWatcher :=
  match text with
  | none => w
  | some t =>
    if t = "" || !w.enabled then w
    else
      if jsTrim (stripMarkup t) = "" then w
      else
        if (observeText w (stripMarkup t)).totalMessagesProcessed %
            (observeText w (stripMarkup t)).settings.pruningCycle = 0 then
          pruneOldNgrams (observeText w (stripMarkup t))
        else observeText w (stripMarkup t)

/-! ### Passive Watcher: queries -/

/-- Model of the `{phrase, score, count}` projection returned by
`getOverusedPhrases` (the spec's `OverusedPhrase` projection
`{text, score, occurrenceCount}`). -/
structure Overused where
  phrase : String
  score : ℚ
  count : Nat
deriving DecidableEq

/-- The descending-score comparison used by the sort in
`getOverusedPhrases` (`(a, b) => b.score - a.score`). -/
def scoreGe (a b : Overused) : Prop := b.score ≤ a.score

instance : DecidableRel scoreGe := fun a b =>
  inferInstanceAs (Decidable (b.score ≤ a.score))

instance : IsTotal Overused scoreGe := ⟨fun a b => le_total b.score a.score⟩

instance : IsTrans Overused scoreGe := ⟨fun _ _ _ hab hbc => le_trans hbc hab⟩

/-- Model of `PassiveWatcher.getOverusedPhrases`.  The `minScore` parameter
has JS default `5.0` (a literal in the source, not the configured
threshold); `none` models a call without the argument.  Entries at or above
the cutoff are collected in insertion order and sorted by descending score;
the source's `Array.prototype.sort` (stable since ES2019) is modelled by the
stable `insertionSort`; the claims proved about the result depend only on
its multiset of elements and its sortedness. -/
def getOverusedPhrases (w : PassiveWatcher) (minScore : Option ℚ) : List Overused :=
  List.insertionSort scoreGe
    ((w.ngramFrequencies.filter (fun p => minScore.getD 5 ≤ p.2.score)).map
      (fun p => ⟨p.1, p.2.score, p.2.count⟩))

/-- Model of the statistics snapshot returned by `PassiveWatcher.getStats`. -/
structure WatcherStats where
  totalPhrases : Nat
  slopCandidates : Nat
  messagesProcessed : Nat
  topPhrases : List Overused
deriving DecidableEq

/-- Model of `PassiveWatcher.getStats`. -/
def getStats (w : PassiveWatcher) : WatcherStats :=
  ⟨w.ngramFrequencies.length, w.slopCandidates.length, w.totalMessagesProcessed,
    (getOverusedPhrases w none).take 10⟩

/-- Model of `PassiveWatcher.reset`. -/
def reset (w : PassiveWatcher) : PassiveWatcher :=
  { w with ngramFrequencies := [], slopCandidates := [], totalMessagesProcessed := 0 }

/-- Model of one element of the message array passed to
`analyzeChatHistory` (`is_user` marks a user-authored turn, `mes` is the
message text; a JS-falsy `mes` is modelled by the empty string). -/
structure ChatMessage where
  is_user : Bool
  mes : String
deriving DecidableEq

/-- Model of the result object of `analyzeChatHistory`. -/
structure BatchResult where
  analyzed : Nat
  overusedPhrases : List Overused
  stats : WatcherStats
deriving DecidableEq

/-- Model of `Array.prototype.slice(-n)` on a list: the last `n` elements,
except that `n = 0` yields the whole array (JS `slice(-0)` is `slice(0)`). -/
def sliceLast (l : List ChatMessage) (n : Nat) : List ChatMessage :=
  if n = 0 then l else l.drop (l.length - n)

/-- Model of `PassiveWatcher.analyzeChatHistory`: reset, keep only messages
that are not user-authored and have nonempty text, take the last
`messagesToAnalyze` of them, analyze each in order, and return the results
together with the final state. -/
def analyzeChatHistory (w : PassiveWatcher) (messages : List ChatMessage) :
    BatchResult × PassiveWatcher :=
  (⟨(sliceLast (messages.filter (fun m => !m.is_user && !(m.mes = "")))
        w.settings.messagesToAnalyze).length,
    getOverusedPhrases
      ((sliceLast (messages.filter (fun m => !m.is_user && !(m.mes = "")))
          w.settings.messagesToAnalyze).foldl
        (fun acc m => analyzeMessage acc (some m.mes)) (reset w))
      none,
    getStats
      ((sliceLast (messages.filter (fun m => !m.is_user && !(m.mes = "")))
          w.settings.messagesToAnalyze).foldl
        (fun acc m => analyzeMessage acc (some m.mes)) (reset w))⟩,
   (sliceLast (messages.filter (fun m => !m.is_user && !(m.mes = "")))
        w.settings.messagesToAnalyze).foldl
     (fun acc m => analyzeMessage acc (some m.mes)) (reset w))

/-! ### Concrete instances and proof-side predicates used by the claims -/

/-- A watcher configured with threshold 3 that has observed one text and
tracks a phrase of score 3.2 (at or above its configured threshold but below
the literal 5.0). -/
def watcherThr3 : PassiveWatcher :=
  analyzeMessage (mkPassiveWatcher { defaultSettings with slopThreshold := 3 })
    (some "glistening obsidian shards flickered")

/-- A single user-authored message with nonempty text. -/
def userMsg : ChatMessage := ⟨true, "Velvet shadows draped quietly."⟩

/-- The rule of the spec's end-to-end scenario 2:
`findRegex "\bheart pounded\b"`, alternatives "pulse quickened" and
"chest tightened" in the `{{random:...}}` syntax. -/
def hpRule : SFRule :=
  ⟨"heart pounded", "\x7b\x7brandom:pulse quickened,chest tightened\x7d\x7d", false, true⟩

/-- A rule whose `replaceString` contains `{{random:` but does not parse as
the `{{random:alt1,alt2,...}}` form (no closing braces). -/
def badRule : SFRule := ⟨"foo", "\x7b\x7brandom:a,b", false, true⟩

/-- A state in which three phrases are tracked: one stale and below the
default threshold, one stale and above it, one fresh. -/
def staleWatcher : PassiveWatcher :=
  { defaultWatcher with
    totalMessagesProcessed := 25,
    ngramFrequencies :=
      [("stale low phrase", ⟨1, 2, 0⟩), ("stale high phrase", ⟨3, 6, 2⟩),
       ("fresh phrase here", ⟨1, 2, 10⟩)] }

/-- The tokens the quality filter sees: the phrase lower-cased and split on
single spaces. -/
def qualityTokens (k : String) : List String :=
  (splitOnChar ' ' (k.data.map Char.toLower) []).map (fun x => (⟨x⟩ : String))

/-- The combined invariant carried through the analysis folds: fields agree
with the base watcher and every tracked key passes the quality filter of the
base watcher. -/
def keyInv (w0 x : PassiveWatcher) : Prop :=
  x.settings = w0.settings ∧ x.whitelist = w0.whitelist ∧
    ∀ k ∈ x.ngramFrequencies.map Prod.fst, isPhraseLowQuality w0 k = false

/-- Whether the first non-whitespace character of `l` is a lowercase
letter. -/
def lowHead (l : List Char) : Bool :=
  match l.dropWhile isWsJS with
  | d :: _ => isLowerAlpha d
  | [] => false

/-- Whether `l` begins with at least one whitespace character followed by a
lowercase letter — exactly the condition under which the second
capitalization regex matches right after a sentence-terminal character. -/
def headWsLower (l : List Char) : Bool :=
  !(l.takeWhile isWsJS).isEmpty && lowHead l

/-- No remaining match site for the second capitalization regex on a
tag-free list: no sentence-terminal character is followed by whitespace and
a lowercase letter. -/
def noPWL : List Char → Bool
  | [] => true
  | c :: rest => !(isSentPunc c && headWsLower rest) && noPWL rest

/-! ### Helper lemmas about the frequency map -/

/-- Setting a key and then reading it yields the written record. -/
theorem mapGet_mapSet_self (m : List (String × NgramData)) (k : String) (v : NgramData) :
    mapGet (mapSet m k v) k = some v := by
  induction m with
  | nil => simp [mapSet, mapGet]
  | cons p rest ih =>
    by_cases h : p.1 = k
    · simp [mapSet, mapGet, h]
    · simp [mapSet, mapGet, h, ih]

/-- Setting a key leaves every other key unchanged. -/
theorem mapGet_mapSet_ne (m : List (String × NgramData)) (k k' : String) (v : NgramData)
    (h : k' ≠ k) : mapGet (mapSet m k v) k' = mapGet m k' := by
  induction m with
  | nil => simp [mapSet, mapGet, Ne.symm h]
  | cons p rest ih =>
    by_cases hp : p.1 = k
    · simp [mapSet, mapGet, hp, Ne.symm h]
    · by_cases hp' : p.1 = k'
      · simp [mapSet, mapGet, hp, hp', h]
      · simp [mapSet, mapGet, hp, hp', ih]

/-! ### Claim C1 -/

/-- C1: for every surviving n-gram of window size `n`, `analyzeMessage`
updates its record by incrementing the occurrence count by 1, increasing the
score by exactly `1.0 + 0.2×(n − ngramMin) + 0.5×(number of tokens of the
n-gram not in the stop-word set)`, and stamping the current message counter
into `lastSeen`.  Stated about `trackNgram`, the body of the n-gram loop of
`analyzeMessage`, for an n-gram that passes the quality filter. -/
theorem claim1_ngram_update (w : PassiveWatcher) (g : String) (n : Nat)
    (h : isPhraseLowQuality w g = false) :
    mapGet (trackNgram w g n).ngramFrequencies g =
      some
        ⟨((mapGet w.ngramFrequencies g).getD ⟨0, 0, w.totalMessagesProcessed⟩).count + 1,
          ((mapGet w.ngramFrequencies g).getD ⟨0, 0, w.totalMessagesProcessed⟩).score +
            (1 + ((n : ℚ) - (w.settings.ngramMin : ℚ)) * 0.2 +
              (uncommonCount w.whitelist g : ℚ) * 0.5),
          w.totalMessagesProcessed⟩ := by
  unfold trackNgram
  simp only [h, Bool.false_eq_true, if_false]
  exact mapGet_mapSet_self _ _ _

/-- Witness for C1 at a concrete watcher and n-gram: observing the trigram
"his heart pounded" (two of whose tokens are outside the stop-word set) in
the default watcher creates the record with count 1, score 2 and the current
counter. -/
theorem claim1_witness :
    isPhraseLowQuality defaultWatcher "his heart pounded" = false ∧
    mapGet (trackNgram defaultWatcher "his heart pounded" 3).ngramFrequencies
        "his heart pounded" =
      some
        ⟨((mapGet defaultWatcher.ngramFrequencies "his heart pounded").getD
            ⟨0, 0, defaultWatcher.totalMessagesProcessed⟩).count + 1,
          ((mapGet defaultWatcher.ngramFrequencies "his heart pounded").getD
            ⟨0, 0, defaultWatcher.totalMessagesProcessed⟩).score +
            (1 + ((3 : ℚ) - (defaultWatcher.settings.ngramMin : ℚ)) * 0.2 +
              (uncommonCount defaultWatcher.whitelist "his heart pounded" : ℚ) * 0.5),
          defaultWatcher.totalMessagesProcessed⟩ :=
  ⟨by decide, claim1_ngram_update defaultWatcher "his heart pounded" 3 (by decide)⟩

/-! ### Claim C3 -/

/-- C3 (counterexample): the no-argument overused-phrases query does not use
the configured threshold as its cutoff — on a watcher configured with
threshold 3 tracking a phrase of score 3.2, the no-argument call returns
nothing while the threshold-cutoff call returns the phrase. -/
theorem claim3_counterexample :
    getOverusedPhrases watcherThr3 none ≠
      getOverusedPhrases watcherThr3 (some watcherThr3.settings.slopThreshold) := by
  with_unfolding_all decide

/-- C3 (amended): the no-argument query uses the literal constant 5.0 as its
default cutoff (the default value of the threshold, not the configured one),
and for any cutoff it returns exactly the tracked records whose score is at
or above it, projected to `{phrase, score, count}` and sorted by descending
score. -/
theorem claim3_overused_query :
    (∀ w : PassiveWatcher, getOverusedPhrases w none = getOverusedPhrases w (some 5)) ∧
    (∀ (w : PassiveWatcher) (ms : Option ℚ),
      (getOverusedPhrases w ms).Perm
        ((w.ngramFrequencies.filter (fun p => ms.getD 5 ≤ p.2.score)).map
          (fun p => ⟨p.1, p.2.score, p.2.count⟩)) ∧
      (getOverusedPhrases w ms).Sorted scoreGe) := by
  constructor
  · intro w; rfl
  · intro w ms
    exact ⟨List.perm_insertionSort _ _, List.sorted_insertionSort _ _⟩

/-! ### Claim C4 -/

/-- C4 (counterexample): the batch analysis does perform speaker
attribution.  On a history consisting of one nonempty user-authored
message, it observes nothing (the final state is the freshly reset watcher
and the analyzed count is 0), although observing that text would have
changed the state — contradicting "observes each of the last
`messagesToAnalyze` non-empty texts regardless of which speaker authored
them". -/
theorem claim4_counterexample :
    (analyzeChatHistory defaultWatcher [userMsg]).2 = reset defaultWatcher ∧
    (analyzeChatHistory defaultWatcher [userMsg]).1.analyzed = 0 ∧
    analyzeMessage (reset defaultWatcher) (some userMsg.mes) ≠ reset defaultWatcher := by
  refine ⟨by with_unfolding_all decide, by with_unfolding_all decide, ?_⟩
  with_unfolding_all decide

/-- C4 (amended): the batch analysis performs the speaker attribution
itself: it resets the watcher and then observes, in order, the last
`messagesToAnalyze` messages that are not user-authored and have nonempty
text; inserting a user-authored message anywhere in the history never
changes the result. -/
theorem claim4_batch_attribution :
    (∀ (w : PassiveWatcher) (msgs : List ChatMessage),
      (analyzeChatHistory w msgs).2 =
        (sliceLast (msgs.filter (fun m => !m.is_user && !(m.mes = "")))
            w.settings.messagesToAnalyze).foldl
          (fun acc m => analyzeMessage acc (some m.mes)) (reset w) ∧
      (analyzeChatHistory w msgs).1.analyzed =
        (sliceLast (msgs.filter (fun m => !m.is_user && !(m.mes = "")))
            w.settings.messagesToAnalyze).length) ∧
    (∀ (w : PassiveWatcher) (msgs1 msgs2 : List ChatMessage) (t : String),
      analyzeChatHistory w (msgs1 ++ ⟨true, t⟩ :: msgs2) =
        analyzeChatHistory w (msgs1 ++ msgs2)) := by
  constructor
  · exact fun w msgs => ⟨rfl, rfl⟩
  · intro w msgs1 msgs2 t
    have hf : (msgs1 ++ ⟨true, t⟩ :: msgs2).filter (fun m => !m.is_user && !(m.mes = "")) =
        (msgs1 ++ msgs2).filter (fun m => !m.is_user && !(m.mes = "")) := by
      simp [List.filter_append]
    unfold analyzeChatHistory
    rw [hf]

/-! ### Claim C5 -/

/-- Evaluation of `process` on the scenario text, with the random draw for
the single match left symbolic. -/
theorem hpRule_eval (choose : Nat → Nat → Nat) :
    process [hpRule] true choose "His heart pounded." =
      fixCapitalization
        ⟨"His ".data ++
          trimL ((["pulse quickened", "chest tightened"].getD (choose 0 0) "").data) ++
          ".".data⟩ := rfl

/-- C5: with the heart-pounded rule, `process` applied to
"His heart pounded." always returns "His pulse quickened." or
"His chest tightened." — never a text still containing the original phrase —
with the leading capitalization preserved; and in general every replacement
spliced in for a match (the trimmed randomly drawn option, as used by
`applyRule`) is one of the alternatives listed in the matching rule. -/
theorem claim5_random_replacement :
    (∀ choose : Nat → Nat → Nat, (∀ i k, choose i k < 2) →
      process [hpRule] true choose "His heart pounded." = "His pulse quickened." ∨
      process [hpRule] true choose "His heart pounded." = "His chest tightened.") ∧
    (∀ (options : List String) (choose : Nat → Nat) (k : Nat),
      choose k < options.length →
      (⟨trimL (options.getD (choose k) "").data⟩ : String) ∈
        options.map (fun o => (⟨trimL o.data⟩ : String))) := by
  constructor
  · intro choose h
    have h2 : choose 0 0 = 0 ∨ choose 0 0 = 1 := by have := h 0 0; omega
    rcases h2 with h1 | h1
    · left
      rw [hpRule_eval choose, h1]
      with_unfolding_all decide
    · right
      rw [hpRule_eval choose, h1]
      with_unfolding_all decide
  · intro options choose k hk
    rw [List.getD_eq_getElem options "" hk]
    exact List.mem_map_of_mem _ (List.getElem_mem hk)

/-- Witness for C5: with the draw that always picks the first option, the
scenario text is rewritten to one of the two listed alternatives. -/
theorem claim5_witness :
    process [hpRule] true (fun _ _ => 0) "His heart pounded." = "His pulse quickened." ∨
    process [hpRule] true (fun _ _ => 0) "His heart pounded." = "His chest tightened." :=
  claim5_random_replacement.1 (fun _ _ => 0) (fun _ _ => Nat.succ_pos 1)

/-! ### Claim C6 -/

/-- C6 (counterexample): on the malformed rule, `applyReplacements` leaves
the matched text unreplaced ("foo" stays "foo"), whereas substituting the
raw replacement string literally — as the claim states — would have
produced "{{random:a,b"; the two differ. -/
theorem claim6_counterexample :
    applyReplacements [badRule] true (fun _ _ => 0) "foo" = "foo" ∧
    (⟨replaceBounded badRule.findLiteral.data "foo".data
        (fun _ => badRule.replaceString.data)⟩ : String) = "\x7b\x7brandom:a,b" ∧
    ("foo" : String) ≠ "\x7b\x7brandom:a,b" := by
  refine ⟨by decide, by decide, by decide⟩

/-- C6 (amended): for every rule whose replace string contains `{{random:`
but does not parse as the `{{random:alt1,alt2,...}}` form, `applyRule`
leaves the text entirely unchanged (the matches are left unreplaced); it
does not fail, and it does not substitute the raw replacement string. -/
theorem claim6_malformed_skip (r : SFRule) (choose : Nat → Nat) (text : String)
    (hc : containsSub ("\x7b\x7brandom:".data) r.replaceString.data = true)
    (hp : parseRandom r.replaceString = none) :
    applyRule r choose text = text := by
  unfold applyRule
  rw [hc, hp]
  simp

/-- Witness for C6 on the concrete malformed rule: a text containing a match
is returned unchanged. -/
theorem claim6_witness :
    containsSub ("\x7b\x7brandom:".data) badRule.replaceString.data = true ∧
    parseRandom badRule.replaceString = none ∧
    applyRule badRule (fun _ => 0) "bar foo baz" = "bar foo baz" :=
  ⟨by decide, by decide,
    claim6_malformed_skip badRule (fun _ => 0) "bar foo baz" (by decide) (by decide)⟩

/-! ### Claim C7 -/

/-- C7: `fixCapitalization` does not pass every markup span through
unchanged.  On the input "<a><b>hi" the leading run of two tags is consumed
by the repeated group `(\s*<[^>]*>)*`, whose capture retains only the last
iteration, so the replacement re-inserts only "<b>": the output is "<b>Hi"
and the span "<a>" — present in the input — does not occur in the output. -/
theorem claim7_tag_dropped :
    fixCapitalization "<a><b>hi" = "<b>Hi" ∧
    containsSub ("<a>".data) "<a><b>hi".data = true ∧
    containsSub ("<a>".data) (fixCapitalization "<a><b>hi").data = false := by
  refine ⟨by decide, by decide, by decide⟩

/-! ### Claim C10 -/

/-- C10: observing a text that is `null` (`none`), empty, or whose content
reduces to the empty string after markup stripping and trimming leaves the
watcher state entirely unchanged: no record is touched, the counter does not
advance, and no pruning is triggered. -/
theorem claim10_empty_noop (w : PassiveWatcher) (t : Option String)
    (h : t = none ∨ t = some "" ∨ jsTrim (stripMarkup (t.getD "")) = "") :
    analyzeMessage w t = w := by
  cases t with
  | none => rfl
  | some s =>
    rcases h with h | h | h
    · exact absurd h (by simp)
    · have hs : s = "" := by simpa using h
      simp [analyzeMessage, hs]
    · simp only [Option.getD] at h
      simp only [analyzeMessage]
      split_ifs <;> rfl

/-- Witness for C10: the text "<br>" strips to markup only, and observing it
leaves the default watcher unchanged. -/
theorem claim10_witness :
    jsTrim (stripMarkup ((some "<br>").getD "")) = "" ∧
    analyzeMessage defaultWatcher (some "<br>") = defaultWatcher :=
  ⟨by decide,
    claim10_empty_noop defaultWatcher (some "<br>") (Or.inr (Or.inr (by decide)))⟩

/-! ### Helper lemmas for pruning (Claim C2) -/

/-- The pruning decision never changes an entry's key. -/
theorem pruneEntry_key (c cy : Nat) (thr : ℚ) (p q : String × NgramData)
    (h : pruneEntry c cy thr p = some q) : q.1 = p.1 := by
  unfold pruneEntry at h
  split_ifs at h <;> (cases h; rfl)

/-- A key absent from the map reads as `none`. -/
theorem mapGet_eq_none (m : List (String × NgramData)) (k : String)
    (h : k ∉ m.map Prod.fst) : mapGet m k = none := by
  induction m with
  | nil => rfl
  | cons p rest ih =>
    simp only [List.map_cons, List.mem_cons] at h
    push_neg at h
    simp [mapGet, Ne.symm h.1, ih h.2]

/-- Keys surviving the pruning pass were keys of the original map. -/
theorem keys_pruneFilter (c cy : Nat) (thr : ℚ) (m : List (String × NgramData))
    (k : String) (h : k ∈ (m.filterMap (pruneEntry c cy thr)).map Prod.fst) :
    k ∈ m.map Prod.fst := by
  induction m with
  | nil => simp at h
  | cons p rest ih =>
    simp only [List.filterMap_cons] at h
    simp only [List.map_cons, List.mem_cons]
    cases hq : pruneEntry c cy thr p with
    | none =>
      rw [hq] at h
      exact Or.inr (ih h)
    | some q =>
      rw [hq] at h
      simp only [List.map_cons, List.mem_cons] at h
      rcases h with h | h
      · exact Or.inl (by rw [h, pruneEntry_key c cy thr p q hq])
      · exact Or.inr (ih h)

/-- Reading a key after the pruning pass applies the pruning decision to the
record that key held before (for a map with duplicate-free keys, the `Map`
invariant of the source). -/
theorem mapGet_pruneFilter (c cy : Nat) (thr : ℚ) (m : List (String × NgramData))
    (k : String) (hnd : (m.map Prod.fst).Nodup) :
    mapGet (m.filterMap (pruneEntry c cy thr)) k =
      (mapGet m k).bind (fun d => (pruneEntry c cy thr (k, d)).map Prod.snd) := by
  induction m with
  | nil => rfl
  | cons p rest ih =>
    obtain ⟨pk, pd⟩ := p
    simp only [List.map_cons, List.nodup_cons] at hnd
    by_cases hp : pk = k
    · subst hp
      simp only [List.filterMap_cons]
      cases hq : pruneEntry c cy thr (pk, pd) with
      | none =>
        have hrest : mapGet (rest.filterMap (pruneEntry c cy thr)) pk = none :=
          mapGet_eq_none _ _ (fun hmem => hnd.1 (keys_pruneFilter c cy thr rest pk hmem))
        simp [mapGet, hq, hrest]
      | some q =>
        have hk : q.1 = pk := pruneEntry_key c cy thr _ _ hq
        obtain ⟨qk, qd⟩ := q
        simp only at hk
        subst hk
        simp [mapGet, hq]
    · simp only [List.filterMap_cons]
      cases hq : pruneEntry c cy thr (pk, pd) with
      | none =>
        simp only [mapGet, if_neg hp]
        exact ih hnd.2
      | some q =>
        have hk : q.1 = pk := pruneEntry_key c cy thr _ _ hq
        obtain ⟨qk, qd⟩ := q
        simp only at hk
        subst hk
        simp only [mapGet, if_neg hp]
        exact ih hnd.2

/-! ### Field-preservation lemmas (Claims C2 and C9) -/

/-- Tracking an n-gram never touches settings, whitelist, counter or flag. -/
theorem trackNgram_fields (w : PassiveWatcher) (g : String) (n : Nat) :
    (trackNgram w g n).settings = w.settings ∧
    (trackNgram w g n).whitelist = w.whitelist ∧
    (trackNgram w g n).totalMessagesProcessed = w.totalMessagesProcessed ∧
    (trackNgram w g n).enabled = w.enabled := by
  unfold trackNgram
  split <;> exact ⟨rfl, rfl, rfl, rfl⟩

/-- Invariance of a predicate under a left fold whose step preserves it. -/
theorem foldl_preserve {α : Type} (P : PassiveWatcher → Prop)
    (f : PassiveWatcher → α → PassiveWatcher)
    (hf : ∀ w a, P w → P (f w a)) :
    ∀ (l : List α) (w : PassiveWatcher), P w → P (l.foldl f w) := by
  intro l
  induction l with
  | nil => exact fun w h => h
  | cons a l ih => exact fun w h => ih _ (hf w a h)

/-- Analyzing one sentence never touches settings, whitelist, counter or
flag. -/
theorem analyzeSentence_fields (w : PassiveWatcher) (s : String) :
    (analyzeSentence w s).settings = w.settings ∧
    (analyzeSentence w s).whitelist = w.whitelist ∧
    (analyzeSentence w s).totalMessagesProcessed = w.totalMessagesProcessed ∧
    (analyzeSentence w s).enabled = w.enabled := by
  unfold analyzeSentence
  refine foldl_preserve
    (fun x => x.settings = w.settings ∧ x.whitelist = w.whitelist ∧
      x.totalMessagesProcessed = w.totalMessagesProcessed ∧ x.enabled = w.enabled)
    _ ?_ _ _ ⟨rfl, rfl, rfl, rfl⟩
  intro x n hx
  refine foldl_preserve
    (fun y => y.settings = w.settings ∧ y.whitelist = w.whitelist ∧
      y.totalMessagesProcessed = w.totalMessagesProcessed ∧ y.enabled = w.enabled)
    _ ?_ _ _ hx
  intro y g hy
  obtain ⟨h1, h2, h3, h4⟩ := trackNgram_fields y g n
  exact ⟨h1.trans hy.1, h2.trans hy.2.1, h3.trans hy.2.2.1, h4.trans hy.2.2.2⟩

/-- The sentence fold of `observeText` never touches settings, whitelist,
counter or flag. -/
theorem sentenceFold_fields (w : PassiveWatcher) (clean : String) :
    ((sentencesOf clean).foldl
      (fun acc s => if jsTrim s = "" then acc else analyzeSentence acc s) w).settings =
        w.settings ∧
    ((sentencesOf clean).foldl
      (fun acc s => if jsTrim s = "" then acc else analyzeSentence acc s) w).whitelist =
        w.whitelist ∧
    ((sentencesOf clean).foldl
      (fun acc s => if jsTrim s = "" then acc else analyzeSentence acc s)
        w).totalMessagesProcessed = w.totalMessagesProcessed ∧
    ((sentencesOf clean).foldl
      (fun acc s => if jsTrim s = "" then acc else analyzeSentence acc s) w).enabled =
        w.enabled := by
  refine foldl_preserve
    (fun x => x.settings = w.settings ∧ x.whitelist = w.whitelist ∧
      x.totalMessagesProcessed = w.totalMessagesProcessed ∧ x.enabled = w.enabled)
    _ ?_ _ _ ⟨rfl, rfl, rfl, rfl⟩
  intro x s hx
  by_cases hs : jsTrim s = ""
  · simpa [hs] using hx
  · obtain ⟨h1, h2, h3, h4⟩ := analyzeSentence_fields x s
    simp only [hs, if_neg]
    exact ⟨(by simp [hs, h1, hx.1]), (by simp [hs, h2, hx.2.1]),
      (by simp [hs, h3, hx.2.2.1]), (by simp [hs, h4, hx.2.2.2])⟩

/-- The function `observeText` advances the counter by exactly one and preserves the
settings. -/
theorem observeText_fields (w : PassiveWatcher) (clean : String) :
    (observeText w clean).totalMessagesProcessed = w.totalMessagesProcessed + 1 ∧
    (observeText w clean).settings = w.settings := by
  obtain ⟨h1, _, h3, _⟩ := sentenceFold_fields w clean
  unfold observeText
  exact ⟨by rw [h3], h1⟩

/-! ### Claim C2 -/

/-- C2: when pruning runs, every tracked record with age
`currentMessageCounter − lastSeen` strictly greater than `pruningCycle` is
deleted if its score is below the threshold and has its score multiplied by
0.9 in place otherwise, while every record with age at most `pruningCycle`
is left unchanged; and pruning runs automatically exactly after every
`pruningCycle`-th processed message (the counter advances by one per
processed message, and the freshly incremented counter is tested for
divisibility by the cycle). -/
theorem claim2_pruning :
    (∀ (w : PassiveWatcher) (k : String) (d : NgramData),
      (w.ngramFrequencies.map Prod.fst).Nodup →
      mapGet w.ngramFrequencies k = some d →
      (((w.totalMessagesProcessed : ℤ) - (d.lastSeen : ℤ) ≤ (w.settings.pruningCycle : ℤ)) →
        mapGet (pruneOldNgrams w).ngramFrequencies k = some d) ∧
      (((w.settings.pruningCycle : ℤ) < (w.totalMessagesProcessed : ℤ) - (d.lastSeen : ℤ)) →
        d.score < w.settings.slopThreshold →
        mapGet (pruneOldNgrams w).ngramFrequencies k = none) ∧
      (((w.settings.pruningCycle : ℤ) < (w.totalMessagesProcessed : ℤ) - (d.lastSeen : ℤ)) →
        ¬ d.score < w.settings.slopThreshold →
        mapGet (pruneOldNgrams w).ngramFrequencies k =
          some { d with score := d.score * 0.9 })) ∧
    (∀ (w : PassiveWatcher) (t : String),
      t ≠ "" → w.enabled = true → jsTrim (stripMarkup t) ≠ "" →
      (observeText w (stripMarkup t)).totalMessagesProcessed =
        w.totalMessagesProcessed + 1 ∧
      analyzeMessage w (some t) =
        (if (w.totalMessagesProcessed + 1) % w.settings.pruningCycle = 0 then
          pruneOldNgrams (observeText w (stripMarkup t))
        else observeText w (stripMarkup t))) := by
  constructor
  · intro w k d hnd hk
    have base := mapGet_pruneFilter w.totalMessagesProcessed w.settings.pruningCycle
      w.settings.slopThreshold w.ngramFrequencies k hnd
    refine ⟨?_, ?_, ?_⟩
    · intro h
      have hpe : pruneEntry w.totalMessagesProcessed w.settings.pruningCycle
          w.settings.slopThreshold (k, d) = some (k, d) := by
        unfold pruneEntry
        rw [if_neg (not_lt.mpr h)]
      show mapGet (w.ngramFrequencies.filterMap
        (pruneEntry w.totalMessagesProcessed w.settings.pruningCycle
          w.settings.slopThreshold)) k = some d
      rw [base, hk]
      simp [hpe]
    · intro h h2
      have hpe : pruneEntry w.totalMessagesProcessed w.settings.pruningCycle
          w.settings.slopThreshold (k, d) = none := by
        unfold pruneEntry
        rw [if_pos h, if_pos h2]
      show mapGet (w.ngramFrequencies.filterMap
        (pruneEntry w.totalMessagesProcessed w.settings.pruningCycle
          w.settings.slopThreshold)) k = none
      rw [base, hk]
      simp [hpe]
    · intro h h2
      have hpe : pruneEntry w.totalMessagesProcessed w.settings.pruningCycle
          w.settings.slopThreshold (k, d) =
          some (k, { d with score := d.score * 0.9 }) := by
        unfold pruneEntry
        rw [if_pos h, if_neg h2]
      show mapGet (w.ngramFrequencies.filterMap
        (pruneEntry w.totalMessagesProcessed w.settings.pruningCycle
          w.settings.slopThreshold)) k = some { d with score := d.score * 0.9 }
      rw [base, hk]
      simp [hpe]
  · intro w t h1 h2 h3
    obtain ⟨hc, hs⟩ := observeText_fields w (stripMarkup t)
    refine ⟨hc, ?_⟩
    simp only [analyzeMessage]
    rw [if_neg (by simp [h1, h2]), if_neg h3, hc, hs]

/-- Witness for C2: in `staleWatcher` the stale above-threshold record is
decayed in place by the factor 0.9, and a first processed message advances
the counter of the default watcher to 1 and does not trigger pruning. -/
theorem claim2_witness :
    ((staleWatcher.ngramFrequencies.map Prod.fst).Nodup ∧
      mapGet staleWatcher.ngramFrequencies "stale high phrase" = some ⟨3, 6, 2⟩ ∧
      mapGet (pruneOldNgrams staleWatcher).ngramFrequencies "stale high phrase" =
        some ⟨3, (6 : ℚ) * 0.9, 2⟩) ∧
    ((observeText defaultWatcher (stripMarkup "His heart pounded.")).totalMessagesProcessed =
        defaultWatcher.totalMessagesProcessed + 1 ∧
      analyzeMessage defaultWatcher (some "His heart pounded.") =
        (if (defaultWatcher.totalMessagesProcessed + 1) %
            defaultWatcher.settings.pruningCycle = 0 then
          pruneOldNgrams (observeText defaultWatcher (stripMarkup "His heart pounded."))
        else observeText defaultWatcher (stripMarkup "His heart pounded."))) :=
  ⟨⟨by decide, by with_unfolding_all decide,
    (claim2_pruning.1 staleWatcher "stale high phrase" ⟨3, 6, 2⟩ (by decide)
        (by with_unfolding_all decide)).2.2 (by decide)
      (by with_unfolding_all decide)⟩,
   claim2_pruning.2 defaultWatcher "His heart pounded." (by decide) rfl (by decide)⟩

/-! ### Helper lemmas for the key invariant (Claim C9) -/

/-- A key of the map after `mapSet` is an old key or the key just set. -/
theorem keys_mapSet (m : List (String × NgramData)) (k : String) (v : NgramData)
    (k' : String) (h : k' ∈ (mapSet m k v).map Prod.fst) :
    k' ∈ m.map Prod.fst ∨ k' = k := by
  induction m with
  | nil =>
    simp only [mapSet, List.map_cons, List.map_nil, List.mem_cons] at h
    exact Or.inr (by simpa using h)
  | cons p rest ih =>
    simp only [mapSet] at h
    by_cases hp : p.1 = k
    · rw [if_pos hp] at h
      simp only [List.map_cons, List.mem_cons] at h
      rcases h with h | h
      · exact Or.inr h
      · exact Or.inl (by simp [h])
    · rw [if_neg hp] at h
      simp only [List.map_cons, List.mem_cons] at h
      rcases h with h | h
      · exact Or.inl (by simp [h])
      · rcases ih h with h' | h'
        · exact Or.inl (by simp [h'])
        · exact Or.inr h'

/-- A key present after `trackNgram` was already present, or is the tracked
n-gram itself and that n-gram passed the quality filter. -/
theorem trackNgram_keys (x : PassiveWatcher) (g : String) (n : Nat) (k : String)
    (h : k ∈ (trackNgram x g n).ngramFrequencies.map Prod.fst) :
    k ∈ x.ngramFrequencies.map Prod.fst ∨ (k = g ∧ isPhraseLowQuality x g = false) := by
  unfold trackNgram at h
  cases hq : isPhraseLowQuality x g with
  | true =>
    rw [hq] at h
    simp only [if_true] at h
    exact Or.inl h
  | false =>
    rw [hq] at h
    simp only [Bool.false_eq_true, if_false] at h
    rcases keys_mapSet _ _ _ _ h with h' | h'
    · exact Or.inl h'
    · exact Or.inr ⟨h', rfl⟩

/-- The quality filter only reads the minimum window size and the whitelist,
so it agrees on watchers that share them. -/
theorem isPhraseLowQuality_congr (x y : PassiveWatcher) (k : String)
    (hs : x.settings = y.settings) (hw : x.whitelist = y.whitelist) :
    isPhraseLowQuality x k = isPhraseLowQuality y k := by
  unfold isPhraseLowQuality
  rw [hs, hw]

/-- Passing the quality filter means: at least `ngramMin` tokens, and at
least one token outside the stop-word set. -/
theorem isPhraseLowQuality_eq_false_iff (w : PassiveWatcher) (k : String) :
    isPhraseLowQuality w k = false ↔
      (w.settings.ngramMin ≤ (qualityTokens k).length ∧
        ∃ tok ∈ qualityTokens k, tok ∉ w.whitelist) := by
  unfold isPhraseLowQuality qualityTokens
  split_ifs with hlen
  · simp only [false_iff, not_and]
    intro hge
    omega
  · push_neg at hlen
    simp only [List.all_eq_false, List.elem_iff]
    constructor
    · rintro ⟨tok, htok, hmem⟩
      exact ⟨hlen, tok, htok, by simpa using hmem⟩
    · rintro ⟨_, tok, htok, hmem⟩
      exact ⟨tok, htok, by simpa using hmem⟩

/-- Tracking an n-gram preserves the key invariant. -/
theorem keyInv_trackNgram (w0 x : PassiveWatcher) (g : String) (n : Nat)
    (hx : keyInv w0 x) : keyInv w0 (trackNgram x g n) := by
  obtain ⟨hs, hw, hk⟩ := hx
  obtain ⟨f1, f2, _, _⟩ := trackNgram_fields x g n
  refine ⟨f1.trans hs, f2.trans hw, ?_⟩
  intro k hkey
  rcases trackNgram_keys x g n k hkey with h | ⟨he, hlow⟩
  · exact hk k h
  · subst he
    rw [← isPhraseLowQuality_congr x w0 k hs hw]
    exact hlow

/-- Analyzing a sentence preserves the key invariant. -/
theorem keyInv_analyzeSentence (w0 x : PassiveWatcher) (s : String)
    (hx : keyInv w0 x) : keyInv w0 (analyzeSentence x s) := by
  unfold analyzeSentence
  refine foldl_preserve (keyInv w0) _ ?_ _ _ hx
  intro y n hy
  refine foldl_preserve (keyInv w0) _ ?_ _ _ hy
  intro z g hz
  exact keyInv_trackNgram w0 z g n hz

/-- Observing a cleaned text preserves the key invariant. -/
theorem keyInv_observeText (w0 x : PassiveWatcher) (clean : String)
    (hx : keyInv w0 x) : keyInv w0 (observeText x clean) := by
  unfold observeText
  have hfold : keyInv w0
      ((sentencesOf clean).foldl
        (fun acc s => if jsTrim s = "" then acc else analyzeSentence acc s) x) := by
    refine foldl_preserve (keyInv w0) _ ?_ _ _ hx
    intro y s hy
    by_cases hs : jsTrim s = ""
    · simpa [hs] using hy
    · simpa [hs] using keyInv_analyzeSentence w0 y s hy
  exact ⟨hfold.1, hfold.2.1, hfold.2.2⟩

/-- Pruning preserves the key invariant. -/
theorem keyInv_prune (w0 x : PassiveWatcher) (hx : keyInv w0 x) :
    keyInv w0 (pruneOldNgrams x) := by
  refine ⟨hx.1, hx.2.1, ?_⟩
  intro k hkey
  exact hx.2.2 k (keys_pruneFilter _ _ _ _ _ hkey)

/-- Analyzing a message preserves the key invariant. -/
theorem keyInv_analyzeMessage (w0 x : PassiveWatcher) (t : Option String)
    (hx : keyInv w0 x) : keyInv w0 (analyzeMessage x t) := by
  cases t with
  | none => exact hx
  | some s =>
    simp only [analyzeMessage]
    split_ifs with h1 h2 h3
    · exact hx
    · exact hx
    · exact keyInv_prune w0 _ (keyInv_observeText w0 x _ hx)
    · exact keyInv_observeText w0 x _ hx

/-! ### Claim C9 -/

/-- C9: an n-gram all of whose tokens are stop words (or with fewer than
`ngramMin` tokens) is never added to the tracked table: if every tracked key
passes the quality filter — at least `ngramMin` tokens and at least one
token outside the stop-word set — then this still holds, for the same
filter, after observing any text; and passing the filter is exactly that
conjunction. -/
theorem claim9_stopword_invariant :
    (∀ (w : PassiveWatcher) (t : Option String),
      (∀ k ∈ w.ngramFrequencies.map Prod.fst, isPhraseLowQuality w k = false) →
      ∀ k ∈ (analyzeMessage w t).ngramFrequencies.map Prod.fst,
        isPhraseLowQuality (analyzeMessage w t) k = false) ∧
    (∀ (w : PassiveWatcher) (k : String),
      isPhraseLowQuality w k = false ↔
        (w.settings.ngramMin ≤ (qualityTokens k).length ∧
          ∃ tok ∈ qualityTokens k, tok ∉ w.whitelist)) := by
  constructor
  · intro w t h
    have hinv := keyInv_analyzeMessage w w t ⟨rfl, rfl, h⟩
    intro k hkey
    rw [isPhraseLowQuality_congr _ w k hinv.1 hinv.2.1]
    exact hinv.2.2 k hkey
  · exact isPhraseLowQuality_eq_false_iff

/-- Witness for C9: starting from the empty default watcher (vacuously
good keys) and observing a concrete text, every tracked key still passes
the quality filter. -/
theorem claim9_witness :
    ∀ k ∈ (analyzeMessage defaultWatcher
        (some "His heart pounded.")).ngramFrequencies.map Prod.fst,
      isPhraseLowQuality (analyzeMessage defaultWatcher (some "His heart pounded.")) k =
        false :=
  claim9_stopword_invariant.1 defaultWatcher (some "His heart pounded.")
    (by intro k hk; simp [defaultWatcher, mkPassiveWatcher] at hk)

/-! ### Helper lemmas for capitalization idempotence (Claim C8) -/

/-- Packing a valid code point with `Char.ofNat` keeps that code point. -/
theorem toNat_ofNat_valid (n : Nat) (h : n.isValidChar) : (Char.ofNat n).toNat = n := by
  rw [Char.ofNat, dif_pos h]
  rfl

/-- Upper-casing a lowercase ASCII letter subtracts 32 from its code. -/
theorem toNat_toUpper_of_lower (c : Char) (h : isLowerAlpha c = true) :
    c.toUpper.toNat = c.toNat - 32 := by
  simp only [isLowerAlpha, Bool.and_eq_true, decide_eq_true_eq] at h
  unfold Char.toUpper
  rw [if_pos ⟨h.1, h.2⟩]
  exact toNat_ofNat_valid _ (Or.inl (by omega))

/-- The upper-cased letter is not lowercase, not whitespace, not
sentence-terminal, and not `<`. -/
theorem toUpper_class (c : Char) (h : isLowerAlpha c = true) :
    isLowerAlpha c.toUpper = false ∧ isWsJS c.toUpper = false ∧
    isSentPunc c.toUpper = false ∧ c.toUpper ≠ '<' := by
  have hn := toNat_toUpper_of_lower c h
  simp only [isLowerAlpha, Bool.and_eq_true, decide_eq_true_eq] at h
  refine ⟨?_, ?_, ?_, ?_⟩
  · simp only [isLowerAlpha, hn, Bool.and_eq_false_iff, decide_eq_false_iff_not]
    left
    omega
  · simp only [isWsJS, hn, Bool.or_eq_false_iff, beq_eq_false_iff_ne, ne_eq]
    omega
  · simp only [isSentPunc, hn, Bool.or_eq_false_iff, beq_eq_false_iff_ne, ne_eq]
    omega
  · intro he
    have : c.toUpper.toNat = 60 := by rw [he]; rfl
    omega

/-- A lowercase letter is neither whitespace nor sentence punctuation
(disjointness of the character classes). -/
theorem lower_class (c : Char) (h : isLowerAlpha c = true) :
    isWsJS c = false ∧ isSentPunc c = false := by
  simp only [isLowerAlpha, Bool.and_eq_true, decide_eq_true_eq] at h
  constructor
  · simp only [isWsJS, Bool.or_eq_false_iff, beq_eq_false_iff_ne, ne_eq]
    omega
  · simp only [isSentPunc, Bool.or_eq_false_iff, beq_eq_false_iff_ne, ne_eq]
    omega

/-- Sentence punctuation is not whitespace. -/
theorem punc_not_ws (c : Char) (h : isSentPunc c = true) : isWsJS c = false := by
  simp only [isSentPunc, Bool.or_eq_true, beq_iff_eq] at h
  simp only [isWsJS, Bool.or_eq_false_iff, beq_eq_false_iff_ne, ne_eq]
  omega

/-- On a list without `<`, the tag-run scanner consumes nothing. -/
theorem capTagRun_no_lt (f : Nat) (last s : List Char) (h : '<' ∉ s) :
    capTagRun f last s = (last, s) := by
  cases f with
  | zero => rfl
  | succ f =>
    unfold capTagRun
    cases hd : s.dropWhile isWsJS with
    | nil => rfl
    | cons c r =>
      have hc : ¬ c = '<' := by
        intro he
        subst he
        exact h ((List.dropWhile_sublist isWsJS).subset (hd ▸ List.mem_cons_self _ _))
      simp [hc]

/-- The test `lowHead` ignores a leading whitespace character. -/
theorem lowHead_cons_ws (c : Char) (l : List Char) (h : isWsJS c = true) :
    lowHead (c :: l) = lowHead l := by
  unfold lowHead
  rw [List.dropWhile_cons_of_pos h]

/-- The test `lowHead` of a list with a non-whitespace head is that head's
lowercase-ness. -/
theorem lowHead_cons_nonws (c : Char) (l : List Char) (h : isWsJS c = false) :
    lowHead (c :: l) = isLowerAlpha c := by
  unfold lowHead
  rw [List.dropWhile_cons_of_neg (by simp [h])]

/-- The test `headWsLower` of a list with a non-whitespace head is false. -/
theorem headWsLower_cons_nonws (c : Char) (l : List Char) (h : isWsJS c = false) :
    headWsLower (c :: l) = false := by
  unfold headWsLower
  rw [List.takeWhile_cons_of_neg (by simp [h])]
  rfl

/-- The test `headWsLower` after one leading whitespace character reduces to
`lowHead`. -/
theorem headWsLower_cons_ws (c : Char) (l : List Char) (h : isWsJS c = true) :
    headWsLower (c :: l) = lowHead l := by
  unfold headWsLower
  rw [List.takeWhile_cons_of_pos h, lowHead_cons_ws c l h]
  simp

/-- Step characterization of the capitalization scan on tag-free input: at a
sentence-terminal head whose remainder starts with whitespace and then a
lowercase letter, the whitespace run collapses to one space and the letter
is upper-cased; in every other case the head character is copied and the
scan continues on the tail. -/
theorem fixCapAfter_step (f : Nat) (c : Char) (rest : List Char) (h : '<' ∉ rest) :
    (headWsLower rest = true → isSentPunc c = true →
      ∃ d r2, rest.dropWhile isWsJS = d :: r2 ∧ isLowerAlpha d = true ∧
        fixCapAfter (f + 1) (c :: rest) = c :: ' ' :: d.toUpper :: fixCapAfter f r2) ∧
    ((isSentPunc c = false ∨ headWsLower rest = false) →
      fixCapAfter (f + 1) (c :: rest) = c :: fixCapAfter f rest) := by
  rcases hE : rest.dropWhile isWsJS with _ | ⟨d, r2⟩
  · have hlow : lowHead rest = false := by unfold lowHead; rw [hE]
    have hwl : headWsLower rest = false := by
      unfold headWsLower
      rw [hlow]
      simp
    constructor
    · intro hwl' _
      rw [hwl] at hwl'
      cases hwl'
    · intro _
      by_cases hp : isSentPunc c = true
      · simp only [fixCapAfter, hp, if_true, capTagRun_no_lt _ _ _ h, hE]
      · simp only [fixCapAfter, hp, Bool.false_eq_true, if_false]
  · have hlow : lowHead rest = isLowerAlpha d := by unfold lowHead; rw [hE]
    have hcondeq : (!(rest.takeWhile isWsJS).isEmpty && isLowerAlpha d) =
        headWsLower rest := by
      unfold headWsLower
      rw [hlow]
    constructor
    · intro hwl hp
      refine ⟨d, r2, rfl, ?_, ?_⟩
      · have := hcondeq.trans hwl
        exact (Bool.and_eq_true _ _ |>.mp this).2
      · simp only [fixCapAfter, hp, if_true, capTagRun_no_lt _ _ _ h, hE, hcondeq, hwl,
          List.nil_append]
    · intro hor
      rcases hor with hor | hor
      · simp only [fixCapAfter, hor, Bool.false_eq_true, if_false]
      · simp only [fixCapAfter, capTagRun_no_lt _ _ _ h, hE, hcondeq, hor,
          Bool.false_eq_true, if_false, ite_self]

/-- The capitalization scan preserves the head character and the
first-non-whitespace-lowercase test on tag-free input. -/
theorem fixCapAfter_heads : ∀ (f : Nat) (s : List Char), '<' ∉ s →
    (fixCapAfter f s).head? = s.head? ∧ lowHead (fixCapAfter f s) = lowHead s := by
  intro f
  induction f with
  | zero => exact fun s _ => ⟨rfl, rfl⟩
  | succ f ih =>
    intro s h
    cases s with
    | nil => exact ⟨rfl, rfl⟩
    | cons c rest =>
      have hrest : '<' ∉ rest := fun hm => h (List.mem_cons_of_mem _ hm)
      obtain ⟨st1, st2⟩ := fixCapAfter_step f c rest hrest
      by_cases hm : isSentPunc c = true ∧ headWsLower rest = true
      · obtain ⟨d, r2, hd, hld, hout⟩ := st1 hm.2 hm.1
        rw [hout]
        have hcw : isWsJS c = false := punc_not_ws c hm.1
        exact ⟨rfl, by rw [lowHead_cons_nonws _ _ hcw, lowHead_cons_nonws _ _ hcw]⟩
      · have hor : isSentPunc c = false ∨ headWsLower rest = false := by
          cases hb : isSentPunc c with
          | false => exact Or.inl rfl
          | true =>
            cases hb2 : headWsLower rest with
            | false => exact Or.inr rfl
            | true => exact absurd ⟨hb, hb2⟩ hm
        rw [st2 hor]
        refine ⟨rfl, ?_⟩
        cases hw : isWsJS c with
        | false => rw [lowHead_cons_nonws _ _ hw, lowHead_cons_nonws _ _ hw]
        | true =>
          rw [lowHead_cons_ws _ _ hw, lowHead_cons_ws _ _ hw]
          exact (ih rest hrest).2

/-- Lists with the same head have whitespace-initial runs that are empty
together. -/
theorem takeWhile_isEmpty_of_head (l l' : List Char) (h : l.head? = l'.head?) :
    (l.takeWhile isWsJS).isEmpty = (l'.takeWhile isWsJS).isEmpty := by
  cases l with
  | nil =>
    cases l' with
    | nil => rfl
    | cons c t => simp at h
  | cons c t =>
    cases l' with
    | nil => simp at h
    | cons c' t' =>
      simp only [List.head?_cons, Option.some_inj] at h
      subst h
      cases hw : isWsJS c with
      | false => rw [List.takeWhile_cons_of_neg (by simp [hw]),
          List.takeWhile_cons_of_neg (by simp [hw])]
      | true =>
        rw [List.takeWhile_cons_of_pos hw, List.takeWhile_cons_of_pos hw]
        rfl

/-- The capitalization scan preserves the match-site test on tag-free
input. -/
theorem headWsLower_out (f : Nat) (s : List Char) (h : '<' ∉ s) :
    headWsLower (fixCapAfter f s) = headWsLower s := by
  obtain ⟨h1, h2⟩ := fixCapAfter_heads f s h
  unfold headWsLower
  rw [h2, takeWhile_isEmpty_of_head _ _ h1]

/-- The capitalization scan introduces no `<`. -/
theorem fixCapAfter_no_lt : ∀ (f : Nat) (s : List Char), '<' ∉ s →
    '<' ∉ fixCapAfter f s := by
  intro f
  induction f with
  | zero => exact fun s h => h
  | succ f ih =>
    intro s h
    cases s with
    | nil => exact h
    | cons c rest =>
      have hrest : '<' ∉ rest := fun hm => h (List.mem_cons_of_mem _ hm)
      have hc : ¬ '<' = c := fun he => h (he ▸ List.mem_cons_self _ _)
      obtain ⟨st1, st2⟩ := fixCapAfter_step f c rest hrest
      by_cases hm : isSentPunc c = true ∧ headWsLower rest = true
      · obtain ⟨d, r2, hd, hld, hout⟩ := st1 hm.2 hm.1
        rw [hout]
        have hr2 : '<' ∉ r2 := by
          intro hmm
          apply hrest
          refine (List.dropWhile_sublist isWsJS).subset ?_
          rw [hd]
          exact List.mem_cons_of_mem d hmm
        have hup := toUpper_class d hld
        simp only [List.mem_cons]
        push_neg
        exact ⟨hc, by decide, fun he => hup.2.2.2 he.symm, ih r2 hr2⟩
      · have hor : isSentPunc c = false ∨ headWsLower rest = false := by
          cases hb : isSentPunc c with
          | false => exact Or.inl rfl
          | true =>
            cases hb2 : headWsLower rest with
            | false => exact Or.inr rfl
            | true => exact absurd ⟨hb, hb2⟩ hm
        rw [st2 hor]
        simp only [List.mem_cons]
        push_neg
        exact ⟨hc, ih rest hrest⟩

/-- After the capitalization scan no match site of the second regex remains
(tag-free input, sufficient fuel). -/
theorem fixCapAfter_noPWL : ∀ (f : Nat) (s : List Char), '<' ∉ s → s.length ≤ f →
    noPWL (fixCapAfter f s) = true := by
  intro f
  induction f with
  | zero =>
    intro s _ hl
    have : s = [] := List.length_eq_zero.mp (Nat.le_zero.mp hl)
    subst this
    rfl
  | succ f ih =>
    intro s h hl
    cases s with
    | nil => rfl
    | cons c rest =>
      have hrest : '<' ∉ rest := fun hm => h (List.mem_cons_of_mem _ hm)
      have hlen : rest.length ≤ f := by
        simp only [List.length_cons] at hl
        omega
      obtain ⟨st1, st2⟩ := fixCapAfter_step f c rest hrest
      by_cases hm : isSentPunc c = true ∧ headWsLower rest = true
      · obtain ⟨d, r2, hd, hld, hout⟩ := st1 hm.2 hm.1
        rw [hout]
        have hr2 : '<' ∉ r2 := by
          intro hmm
          apply hrest
          refine (List.dropWhile_sublist isWsJS).subset ?_
          rw [hd]
          exact List.mem_cons_of_mem d hmm
        have hr2len : r2.length ≤ f := by
          have h1 : (rest.dropWhile isWsJS).length ≤ rest.length :=
            (List.dropWhile_sublist isWsJS).length_le
          rw [hd] at h1
          simp only [List.length_cons] at h1
          omega
        have hup := toUpper_class d hld
        have e1 : headWsLower (' ' :: d.toUpper :: fixCapAfter f r2) = false := by
          rw [headWsLower_cons_ws _ _ (by decide), lowHead_cons_nonws _ _ hup.2.1, hup.1]
        have e2 : isSentPunc ' ' = false := by decide
        simp only [noPWL, e1, e2, hup.2.2.1, Bool.and_false, Bool.false_and,
          Bool.not_false, Bool.true_and, ih r2 hr2 hr2len, Bool.and_true]
      · have hor : isSentPunc c = false ∨ headWsLower rest = false := by
          cases hb : isSentPunc c with
          | false => exact Or.inl rfl
          | true =>
            cases hb2 : headWsLower rest with
            | false => exact Or.inr rfl
            | true => exact absurd ⟨hb, hb2⟩ hm
        rw [st2 hor]
        have e3 : (isSentPunc c && headWsLower (fixCapAfter f rest)) = false := by
          rw [headWsLower_out f rest hrest]
          rcases hor with hor | hor
          · rw [hor, Bool.false_and]
          · rw [hor, Bool.and_false]
        simp only [noPWL, e3, Bool.not_false, Bool.true_and, ih rest hrest hlen]

/-- The capitalization scan is the identity on tag-free input with no
remaining match site. -/
theorem fixCapAfter_id_of_noPWL : ∀ (f : Nat) (s : List Char), '<' ∉ s →
    noPWL s = true → fixCapAfter f s = s := by
  intro f
  induction f with
  | zero => exact fun s _ _ => rfl
  | succ f ih =>
    intro s h hnp
    cases s with
    | nil => rfl
    | cons c rest =>
      have hrest : '<' ∉ rest := fun hm => h (List.mem_cons_of_mem _ hm)
      simp only [noPWL, Bool.and_eq_true, Bool.not_eq_true'] at hnp
      obtain ⟨st1, st2⟩ := fixCapAfter_step f c rest hrest
      have hor : isSentPunc c = false ∨ headWsLower rest = false := by
        cases hb : isSentPunc c with
        | false => exact Or.inl rfl
        | true =>
          cases hb2 : headWsLower rest with
          | false => exact Or.inr rfl
          | true =>
            exfalso
            have := hnp.1
            rw [hb, hb2] at this
            cases this
      rw [st2 hor, ih rest hrest hnp.2]

/-- On tag-free input, the first-letter pass upper-cases a lowercase head
and does nothing otherwise. -/
theorem fixCapFirst_cons (c : Char) (r : List Char) (h : '<' ∉ c :: r) :
    fixCapFirst (c :: r) = if isLowerAlpha c = true then c.toUpper :: r else c :: r := by
  by_cases hl : isLowerAlpha c = true
  · simp only [fixCapFirst, capTagRun_no_lt _ _ _ h, hl, if_true, List.nil_append]
  · simp only [fixCapFirst, capTagRun_no_lt _ _ _ h, hl, Bool.false_eq_true, if_false]

/-- The first-letter pass keeps a tag-free list tag-free. -/
theorem fixCapFirst_no_lt (s : List Char) (h : '<' ∉ s) : '<' ∉ fixCapFirst s := by
  cases s with
  | nil =>
    rw [show fixCapFirst ([] : List Char) = [] from rfl]
    exact h
  | cons c r =>
    rw [fixCapFirst_cons c r h]
    by_cases hl : isLowerAlpha c = true
    · rw [if_pos hl]
      simp only [List.mem_cons]
      push_neg
      exact ⟨fun he => (toUpper_class c hl).2.2.2 he.symm,
        fun hm => h (List.mem_cons_of_mem _ hm)⟩
    · rw [if_neg hl]
      exact h

/-- The head of the first-letter pass's output is never a lowercase
letter (tag-free input). -/
theorem fixCapFirst_head (s : List Char) (h : '<' ∉ s) (c : Char)
    (hc : (fixCapFirst s).head? = some c) : isLowerAlpha c = false := by
  cases s with
  | nil =>
    rw [show fixCapFirst ([] : List Char) = [] from rfl] at hc
    simp at hc
  | cons a r =>
    rw [fixCapFirst_cons a r h] at hc
    by_cases hl : isLowerAlpha a = true
    · rw [if_pos hl] at hc
      simp only [List.head?_cons, Option.some_inj] at hc
      subst hc
      exact (toUpper_class a hl).1
    · rw [if_neg hl] at hc
      simp only [List.head?_cons, Option.some_inj] at hc
      subst hc
      exact Bool.not_eq_true _ ▸ hl

/-- The first-letter pass is the identity when the head is not a lowercase
letter (tag-free input). -/
theorem fixCapFirst_id (s : List Char) (h : '<' ∉ s)
    (hh : ∀ c, s.head? = some c → isLowerAlpha c = false) : fixCapFirst s = s := by
  cases s with
  | nil => rfl
  | cons a r =>
    rw [fixCapFirst_cons a r h, if_neg]
    rw [hh a rfl]
    simp

/-! ### Claim C8 -/

/-- C8 (counterexample): `fixCapitalization` is not idempotent.  On
".<a. b>\tc" the first application consumes the whole string as one match
(the tag is inside the consumed tag run), producing ".<a. b> C"; the second
application then matches the ". b" INSIDE the re-inserted tag and produces
".<a. B> C". -/
theorem claim8_counterexample :
    fixCapitalization ".<a. b>\tc" = ".<a. b> C" ∧
    fixCapitalization (fixCapitalization ".<a. b>\tc") = ".<a. B> C" ∧
    fixCapitalization (fixCapitalization ".<a. b>\tc") ≠
      fixCapitalization ".<a. b>\tc" := by
  refine ⟨by decide, by decide, by decide⟩

/-- C8 (amended): `fixCapitalization` is idempotent on every input that
contains no angle-bracket markup (no `<` character): applying it twice
yields the same result as applying it once. -/
theorem claim8_idempotent_no_tags (s : String) (h : '<' ∉ s.data) :
    fixCapitalization (fixCapitalization s) = fixCapitalization s := by
  by_cases hs : s = ""
  · subst hs
    rfl
  · have e : fixCapitalization s =
        ⟨fixCapAfter ((fixCapFirst s.data).length + 1) (fixCapFirst s.data)⟩ := by
      simp [fixCapitalization, hs]
    have hna : '<' ∉ fixCapFirst s.data := fixCapFirst_no_lt s.data h
    have hnb : '<' ∉ fixCapAfter ((fixCapFirst s.data).length + 1) (fixCapFirst s.data) :=
      fixCapAfter_no_lt _ _ hna
    have hnpb : noPWL (fixCapAfter ((fixCapFirst s.data).length + 1)
        (fixCapFirst s.data)) = true :=
      fixCapAfter_noPWL _ _ hna (by omega)
    have hheadb : ∀ c,
        (fixCapAfter ((fixCapFirst s.data).length + 1) (fixCapFirst s.data)).head? =
          some c → isLowerAlpha c = false := by
      intro c hc
      rw [(fixCapAfter_heads _ _ hna).1] at hc
      exact fixCapFirst_head s.data h c hc
    by_cases hb0 : fixCapitalization s = ""
    · rw [hb0]
      rfl
    · obtain ⟨b, hbdef⟩ : ∃ b, fixCapitalization s = b := ⟨_, rfl⟩
      rw [hbdef] at hb0 ⊢
      obtain ⟨bl⟩ := b
      have hBdata : bl =
          fixCapAfter ((fixCapFirst s.data).length + 1) (fixCapFirst s.data) := by
        have := hbdef.symm.trans e
        injection this
      subst hBdata
      unfold fixCapitalization
      rw [if_neg hb0, fixCapFirst_id _ hnb hheadb]
      simp only [fixCapAfter_id_of_noPWL _ _ hnb hnpb]

/-- Witness for C8: a tag-free text with several capitalization sites is a
fixed point after one application. -/
theorem claim8_witness :
    '<' ∉ ("his heart pounded.  and then. more" : String).data ∧
    fixCapitalization (fixCapitalization "his heart pounded.  and then. more") =
      fixCapitalization "his heart pounded.  and then. more" :=
  ⟨by decide, claim8_idempotent_no_tags "his heart pounded.  and then. more" (by decide)⟩
